import Mathlib

/-
Verification of the fracture worktree manager (segersniels/fracture).

The repository is a Bun/TypeScript CLI that manages git worktrees
("fractures") under `~/.fracture/<repo>/<id>`.  The development below is a
shallow embedding of the pure logic of the source files:

  * src/repository.ts   (class Repository: detect, getFractures,
                         getWorktreesById, buildFractureId, createFracture,
                         trySetUpstream and helpers)
  * src/fracture.ts     (class Fracture: delete, installNodeDeps,
                         buildNodeInstallCommand, readNodeVersion,
                         detectNodeVersionManager, buildNvmCommand,
                         escapeShellArg, PACKAGE_MANAGERS)
  * src/index.ts        (the CLI; it contains two standalone variants:
                         the search-picker variant with installNodeDeps
                         copying node_modules, embedded as IndexV1, and the
                         clack-picker variant whose create/deleteFracture
                         handle picker cancellation, embedded as IndexV2)

External effects (subprocesses, the filesystem, environment variables) are
passed in as explicit oracles: `existsSync` becomes a `String → Bool`
predicate, `readFileSync` a `String → String`, and each `exec` call an
oracle `List String → ExecResult` from argv to captured result.  Functions
that only perform effects are embedded as the list of argv vectors they
spawn, in order.  Node's `path` functions (posix `join`, `basename`,
`isAbsolute`) and the JavaScript string operations used by the source
(`trim`, `slice`, `split`, `startsWith`, `replace` with the specific
anchored patterns that appear) are modelled on `List Char`.
-/

/-- One whitespace character in the JavaScript sense (the forms that occur
in the inputs handled here). -/
def isJsWS (c : Char) : Bool :=
  c = ' ' ∨ c = '\t' ∨ c = '\n' ∨ c = '\r'

/-- Model of JavaScript `String.prototype.trim`. -/
def jsTrim (s : String) : String :=
  ⟨((s.data.dropWhile isJsWS).reverse.dropWhile isJsWS).reverse⟩

/-- Boolean prefix test on character lists. -/
def prefOf : List Char → List Char → Bool
  | [], _ => true
  | _ :: _, [] => false
  | c :: cs, d :: ds => if c = d then prefOf cs ds else false

/-- Model of JavaScript `s.startsWith(pre)`. -/
def strStartsWith (s pre : String) : Bool :=
  prefOf pre.data s.data

/-- Model of JavaScript `s.slice(n)` for a nonnegative start index. -/
def jsSlice (s : String) (n : Nat) : String :=
  ⟨s.data.drop n⟩

/-- Model of JavaScript `s.split(sep)` for a one-character separator,
on character lists. -/
def splitCh (sep : Char) : List Char → List (List Char)
  | [] => [[]]
  | c :: cs =>
    if c = sep then [] :: splitCh sep cs
    else
      match splitCh sep cs with
      | [] => [[c]]
      | g :: gs => (c :: g) :: gs

/-- Model of JavaScript `s.split(sep)` for a one-character separator. -/
def jsSplit (sep : Char) (s : String) : List String :=
  (splitCh sep s.data).map (fun g => (⟨g⟩ : String))

/-- Model of `s.split(/\r?\n/)`, on character lists. -/
def splitRN : List Char → List (List Char)
  | [] => [[]]
  | '\r' :: '\n' :: rest => [] :: splitRN rest
  | '\n' :: rest => [] :: splitRN rest
  | c :: rest =>
    match splitRN rest with
    | [] => [[c]]
    | g :: gs => (c :: g) :: gs

mutual

/-- Model of `s.split(/\s+/)` (split on maximal whitespace runs), on
character lists: main state, not currently inside a whitespace run. -/
def splitWsRuns : List Char → List (List Char)
  | [] => [[]]
  | c :: cs =>
    if isJsWS c then [] :: skipWsRun cs
    else
      match splitWsRuns cs with
      | [] => [[c]]
      | g :: gs => (c :: g) :: gs

/-- Model of `s.split(/\s+/)`: state inside a whitespace run, consuming
the remainder of the run. -/
def skipWsRun : List Char → List (List Char)
  | [] => [[]]
  | c :: cs =>
    if isJsWS c then skipWsRun cs
    else
      match splitWsRuns cs with
      | [] => [[c]]
      | g :: gs => (c :: g) :: gs

end

/-- Model of `line.split(/\s+/)` as strings. -/
def wsTokens (s : String) : List String :=
  (splitWsRuns s.data).map (fun g => (⟨g⟩ : String))

/-- First `/`-separated field, i.e. JavaScript `s.split("/")[0]`. -/
def headSegOf (s : String) : String :=
  ⟨((splitCh '/' s.data).head?).getD []⟩

/-- Model of `s.replace(/^refs\/heads\//, "")`. -/
def stripRefsHeads (s : String) : String :=
  if strStartsWith s "refs/heads/" then jsSlice s ("refs/heads/".length) else s

/-- Join character-list segments with `/` separators. -/
def joinSegs : List (List Char) → List Char
  | [] => []
  | [g] => g
  | g :: gs => g ++ '/' :: joinSegs gs

/-- Join strings with single spaces, i.e. JavaScript `arr.join(" ")`. -/
def joinSpace : List String → String
  | [] => ""
  | [s] => s
  | s :: rest => s ++ " " ++ joinSpace rest

/-- Model of Node `path.isAbsolute` on posix paths. -/
def isAbsolute (p : String) : Bool :=
  p.data.head? = some '/'

/-- Stack step of Node `path.normalize`: push plain segments, drop `.` and
empty segments, and let `..` pop the previous segment (absolute paths drop
a `..` at the root; relative paths keep leading `..` segments). -/
def normStack (abs : Bool) : List (List Char) → List (List Char) → List (List Char)
  | stack, [] => stack
  | stack, g :: gs =>
    if g = [] ∨ g = ['.'] then normStack abs stack gs
    else if g = ['.', '.'] then
      match stack with
      | [] => if abs then normStack abs [] gs else normStack abs [['.', '.']] gs
      | t :: ts =>
        if t = ['.', '.'] then normStack abs (g :: t :: ts) gs else normStack abs ts gs
    else normStack abs (g :: stack) gs

/-- Model of Node `path.posix.normalize` (trailing-slash preservation,
which nothing here observes, is not modelled). -/
def normalizeString (s : String) : String :=
  let abs := isAbsolute s
  let segs := (normStack abs [] (splitCh '/' s.data)).reverse
  match segs with
  | [] => if abs then "/" else "."
  | _ => (if abs then "/" else "") ++ (⟨joinSegs segs⟩ : String)

/-- Model of Node `path.posix.join` applied to a list of parts. -/
def joinList (parts : List String) : String :=
  match parts.filter (· ≠ "") with
  | [] => "."
  | ps => normalizeString ⟨joinSegs (ps.map String.data)⟩

/-- Model of the two-argument Node `path.posix.join`. -/
def joinPath (a b : String) : String :=
  joinList [a, b]

/-- Nonempty `/`-separated segments of a path. -/
def segsOfChars (cs : List Char) : List (List Char) :=
  (splitCh '/' cs).filter (· ≠ [])

/-- Model of Node `path.posix.basename`: the last nonempty segment. -/
def basename (p : String) : String :=
  ⟨((segsOfChars p.data).getLast?).getD []⟩

/-- Written from the spec words: the base name of a path's parent
directory, i.e. the next-to-last nonempty segment of the path. -/
def parentBasename (p : String) : String :=
  ⟨(((segsOfChars p.data).dropLast).getLast?).getD []⟩

/-- Captured result of one `exec` subprocess call (src/utils/exec). -/
structure ExecResult where
  success : Bool
  stdout : String
  stderr : String

/-- The Repository entity of src/repository.ts. -/
structure Repository where
  name : String
  root : String
deriving DecidableEq

/-- The Fracture entity of src/fracture.ts (the back-reference to the
repository carries no data used by the embedded operations). -/
structure Fracture where
  id : String
  path : String
  branch : String
deriving DecidableEq

/-- One entry of `readdirSync(dir, \x7b withFileTypes: true \x7d)`. -/
structure DirEntry where
  name : String
  isDirectory : Bool
deriving DecidableEq

/-- Repository.detect (src/repository.ts): the two git queries are passed
in as their captured results. -/
def Repository.detect (rootResult gitDirResult : ExecResult) : Option Repository :=
  if rootResult.success = false then none
  else
    let root := rootResult.stdout
    if gitDirResult.success = false then none
    else
      let gitDir := gitDirResult.stdout
      let name :=
        if isAbsolute gitDir then basename (joinPath gitDir "..")
        else basename root
      some ⟨name, root⟩

/-- The per-repository fracture directory `join(homedir(), ".fracture",
this.name)` of src/repository.ts, with the home directory explicit. -/
def Repository.fracturesDir (home : String) (r : Repository) : String :=
  joinList [home, ".fracture", r.name]

/-- Model of JavaScript `Map.prototype.set` on an insertion-ordered
association list: update in place if the key is present, else append. -/
def mapSet (m : List (String × String)) (k v : String) : List (String × String) :=
  if m.any (fun p => p.1 == k) then
    m.map (fun p => if p.1 == k then (k, v) else p)
  else m ++ [(k, v)]

/-- Model of JavaScript `Map.prototype.get` (`none` for a missing key). -/
def mapGet (m : List (String × String)) (k : String) : Option String :=
  (m.find? (fun p => p.1 == k)).map (·.2)

/-- The id extraction applied to a flushed worktree path in
getWorktreesById (src/repository.ts): `currentPath.startsWith(fd)
? currentPath.slice(fd.length + 1).split("/")[0] : null`, with the
truthiness test `if (id)` folded in (an empty id is rejected). -/
def recordId (fracturesDir p : String) : Option String :=
  if strStartsWith p fracturesDir then
    let i := headSegOf (jsSlice p (fracturesDir.length + 1))
    if i = "" then none else some i
  else none

/-- The flush step of getWorktreesById: when a worktree record ends, map
its derived id (if any) to the branch accumulated for the record. -/
def flushWorktree (fracturesDir : String) (m : List (String × String))
    (currentPath : Option String) (currentBranch : String) : List (String × String) :=
  match currentPath with
  | none => m
  | some p =>
    match recordId fracturesDir p with
    | some i => mapSet m i currentBranch
    | none => m

/-- The line loop of getWorktreesById (src/repository.ts): `worktree `
lines flush the previous record and open a new one with branch
"unknown"; `branch ` lines overwrite the current branch (stripping
`refs/heads/`); all other lines are ignored; the last record is flushed
at the end. -/
def worktreeLoop (fracturesDir : String) :
    List String → Option String → String → List (String × String) → List (String × String)
  | [], currentPath, currentBranch, m => flushWorktree fracturesDir m currentPath currentBranch
  | line :: rest, currentPath, currentBranch, m =>
    if strStartsWith line "worktree " then
      worktreeLoop fracturesDir rest
        (some (jsTrim (jsSlice line ("worktree ".length)))) "unknown"
        (flushWorktree fracturesDir m currentPath currentBranch)
    else if strStartsWith line "branch " then
      worktreeLoop fracturesDir rest currentPath
        (stripRefsHeads (jsTrim (jsSlice line ("branch ".length)))) m
    else
      worktreeLoop fracturesDir rest currentPath currentBranch m

/-- Repository.getWorktreesById (src/repository.ts): parse
`git worktree list --porcelain` output (passed in as its captured exec
result) into the id-to-branch map; a failed exec yields the empty map. -/
def Repository.getWorktreesById (fracturesDir : String) (res : ExecResult) :
    List (String × String) :=
  if res.success = false then []
  else worktreeLoop fracturesDir (jsSplit '\n' res.stdout) none "unknown" []

/-- Repository.getFractures (src/repository.ts): the existence of the
fracture directory and its `readdirSync` entries are passed in
explicitly, as is the `git worktree list --porcelain` exec result. -/
def Repository.getFractures (fracturesDir : String) (dirExists : Bool)
    (entries : List DirEntry) (res : ExecResult) : List Fracture :=
  if dirExists = false then []
  else
    let worktrees := Repository.getWorktreesById fracturesDir res
    (entries.filter (·.isDirectory)).map (fun entry =>
      { id := entry.name
        path := joinPath fracturesDir entry.name
        branch := (mapGet worktrees entry.name).getD "unknown" })

/-- Whether a character is collapsed by `branch.replaceAll(/[/_]+/g, "-")`. -/
def isSep (c : Char) : Bool :=
  c = '/' ∨ c = '_'

mutual

/-- Character-level model of `replaceAll(/[/_]+/g, "-")`: each maximal
run of `/` and `_` characters becomes a single `-`. -/
def collapseSeps : List Char → List Char
  | [] => []
  | c :: cs => if isSep c then '-' :: skipSeps cs else c :: collapseSeps cs

/-- Consume the remainder of a separator run begun in `collapseSeps`. -/
def skipSeps : List Char → List Char
  | [] => []
  | c :: cs => if isSep c then skipSeps cs else c :: collapseSeps cs

end

/-- Repository#buildFractureId (src/repository.ts). -/
def Repository.buildFractureId (branch : String) : String :=
  ⟨collapseSeps branch.data⟩

/-- Repository#hasUpstream (src/repository.ts), returning the result
together with the argv vectors of the exec calls it performed. -/
def Repository.hasUpstream (o : List String → ExecResult) (branch : String) :
    Bool × List (List String) :=
  let remoteCmd := ["git", "config", "--get", "branch." ++ branch ++ ".remote"]
  let remoteResult := o remoteCmd
  if remoteResult.success = false ∨ remoteResult.stdout = "" then (false, [remoteCmd])
  else
    let mergeCmd := ["git", "config", "--get", "branch." ++ branch ++ ".merge"]
    let mergeResult := o mergeCmd
    (remoteResult.success && mergeResult.success && !(mergeResult.stdout == ""),
      [remoteCmd, mergeCmd])

/-- Repository#hasOriginRemoteBranch (src/repository.ts), with the exec
trace. -/
def Repository.hasOriginRemoteBranch (o : List String → ExecResult) (branch : String) :
    Bool × List (List String) :=
  let cmd := ["git", "show-ref", "--verify", "--quiet", "refs/remotes/origin/" ++ branch]
  ((o cmd).success, [cmd])

/-- Repository#trySetUpstream (src/repository.ts), returning the argv
vectors of the exec calls it performed (its own result is discarded by
the caller). -/
def Repository.trySetUpstream (o : List String → ExecResult) (branch : String) :
    List (List String) :=
  let up := Repository.hasUpstream o branch
  if up.1 then up.2
  else
    let origin := Repository.hasOriginRemoteBranch o branch
    if origin.1 = false then up.2 ++ origin.2
    else
      let cmd := ["git", "branch", "--set-upstream-to", "origin/" ++ branch, branch]
      let _ := o cmd
      up.2 ++ origin.2 ++ [cmd]

/-- Repository#createFracture (src/repository.ts): `existsSync` is the
predicate `ex`, `exec` the oracle `o`; the result is paired with the argv
vectors of every exec call performed, in order.  A thrown Error is
modelled as `Except.error` carrying the message. -/
def Repository.createFracture (home : String) (r : Repository)
    (ex : String → Bool) (o : List String → ExecResult)
    (branch : String) (isNewBranch : Bool) :
    Except String Fracture × List (List String) :=
  let id := Repository.buildFractureId branch
  let path := joinPath (r.fracturesDir home) id
  if ex path then
    (Except.error ("fracture already exists: " ++ id ++ " (from branch \"" ++ branch ++ "\")"), [])
  else
    let cmd :=
      if isNewBranch then ["git", "worktree", "add", "-b", branch, path]
      else ["git", "worktree", "add", path, branch]
    let result := o cmd
    if result.success = false then (Except.error result.stderr, [cmd])
    else if isNewBranch then (Except.ok ⟨id, path, branch⟩, [cmd])
    else (Except.ok ⟨id, path, branch⟩, [cmd] ++ Repository.trySetUpstream o branch)

/-- The argv vector of Fracture#delete's `git worktree remove` call
(src/fracture.ts): `--force` is appended exactly when `force` is set. -/
def Fracture.deleteCmd (f : Fracture) (force : Bool) : List String :=
  ["git", "worktree", "remove", f.path] ++ (if force then ["--force"] else [])

/-- Fracture#delete (src/fracture.ts): `null` on success, else the
captured stderr, or "unknown error" when stderr is empty (the JavaScript
`result.stderr || "unknown error"`). -/
def Fracture.delete (f : Fracture) (force : Bool) (o : List String → ExecResult) :
    Option String :=
  let result := o (Fracture.deleteCmd f force)
  if result.success then none
  else some (if result.stderr = "" then "unknown error" else result.stderr)

/-- The lockfile-to-command table PACKAGE_MANAGERS of src/fracture.ts, in
object-literal insertion order. -/
def PACKAGE_MANAGERS : List (String × List String) :=
  [("pnpm-lock.yaml", ["pnpm", "install"]),
   ("yarn.lock", ["yarn", "install"]),
   ("bun.lockb", ["bun", "install"]),
   ("bun.lock", ["bun", "install"])]

/-- The lockfile scan of Fracture#installNodeDeps (src/fracture.ts):
start from `npm install` and take the command of the first lockfile that
exists in the fracture directory. -/
def pickCmd (ex : String → Bool) (path : String) :
    List (String × List String) → List String
  | [] => ["npm", "install"]
  | (lockfile, installCmd) :: rest =>
    if ex (joinPath path lockfile) then installCmd else pickCmd ex path rest

/-- The NODE_VERSION_FILES constant of src/fracture.ts. -/
def NODE_VERSION_FILES : List String :=
  [".nvmrc", ".node-version", ".tool-versions"]

/-- The NodeVersionManager union type of src/fracture.ts. -/
inductive NodeVersionManager
  | fnm
  | nvm
  | n
deriving DecidableEq

/-- The ambient process state consulted by the Node install path of
src/fracture.ts: `existsSync`, `readFileSync`, the NVM_DIR / HOME / SHELL
environment variables, and the `Bun.which` probes for fnm and n. -/
structure NodeEnv where
  ex : String → Bool
  read : String → String
  nvmDirEnv : Option String
  homeEnv : Option String
  shellEnv : Option String
  whichFnm : Bool
  whichN : Bool

/-- The shared nvm-directory computation of Fracture#hasNvm and
Fracture#buildNvmCommand: `process.env.NVM_DIR || (process.env.HOME
? join(process.env.HOME, ".nvm") : null)`, with JavaScript falsiness of
the empty string. -/
def nvmDirOf (env : NodeEnv) : Option String :=
  let homeFallback :=
    match env.homeEnv with
    | some h => if h ≠ "" then some (joinPath h ".nvm") else none
    | none => none
  match env.nvmDirEnv with
  | some s => if s ≠ "" then some s else homeFallback
  | none => homeFallback

/-- Fracture#hasNvm (src/fracture.ts). -/
def Fracture.hasNvm (env : NodeEnv) : Bool :=
  match nvmDirOf env with
  | none => false
  | some nvmDir => env.ex (joinPath nvmDir "nvm.sh")

/-- Fracture#detectNodeVersionManager (src/fracture.ts). -/
def Fracture.detectNodeVersionManager (env : NodeEnv) : Option NodeVersionManager :=
  if env.whichFnm then some NodeVersionManager.fnm
  else if Fracture.hasNvm env then some NodeVersionManager.nvm
  else if env.whichN then some NodeVersionManager.n
  else none

/-- The file scan loop of Fracture#readNodeVersion (src/fracture.ts). -/
def readNodeVersionLoop (env : NodeEnv) (path : String) : List String → Option String
  | [] => none
  | filename :: rest =>
    let fullPath := joinPath path filename
    if env.ex fullPath = false then readNodeVersionLoop env path rest
    else
      let raw := jsTrim (env.read fullPath)
      if raw = "" then readNodeVersionLoop env path rest
      else if filename = ".tool-versions" then
        match ((splitRN raw.data).map (fun g => (⟨g⟩ : String))).find?
            (fun entry => strStartsWith (jsTrim entry) "nodejs ") with
        | none => readNodeVersionLoop env path rest
        | some line =>
          match (wsTokens (jsTrim line)).get? 1 with
          | some version =>
            if version ≠ "" then some version else readNodeVersionLoop env path rest
          | none => readNodeVersionLoop env path rest
      else some raw

/-- Fracture#readNodeVersion (src/fracture.ts). -/
def Fracture.readNodeVersion (env : NodeEnv) (path : String) : Option String :=
  readNodeVersionLoop env path NODE_VERSION_FILES

/-- Fracture#escapeShellArg (src/fracture.ts): single-quote the value,
turning every embedded quote into the four characters quote backslash
quote quote. -/
def Fracture.escapeShellArg (value : String) : String :=
  ⟨'\'' :: (value.data.flatMap
    (fun c => if c = '\'' then ['\'', '\\', '\'', '\''] else [c])) ++ ['\'']⟩

/-- Fracture#buildNvmCommand (src/fracture.ts). -/
def Fracture.buildNvmCommand (env : NodeEnv) (version : String) (cmd : List String) :
    Option (List String) :=
  match nvmDirOf env with
  | none => none
  | some nvmDir =>
    let nvmScript := joinPath nvmDir "nvm.sh"
    if env.ex nvmScript = false then none
    else
      let shell :=
        if env.ex "/bin/bash" then "/bin/bash"
        else
          match env.shellEnv with
          | some s => if s ≠ "" then s else "/bin/sh"
          | none => "/bin/sh"
      let command :=
        ". " ++ Fracture.escapeShellArg nvmScript ++ " && "
          ++ "nvm exec " ++ Fracture.escapeShellArg version ++ " "
          ++ joinSpace (cmd.map Fracture.escapeShellArg)
      some [shell, "-lc", command]

/-- Fracture#buildNodeInstallCommand (src/fracture.ts). -/
def Fracture.buildNodeInstallCommand (env : NodeEnv) (path : String)
    (cmd : List String) : List String :=
  match Fracture.readNodeVersion env path with
  | none => cmd
  | some version =>
    match Fracture.detectNodeVersionManager env with
    | none => cmd
    | some NodeVersionManager.fnm => ["fnm", "exec", "--using", version, "--"] ++ cmd
    | some NodeVersionManager.n => ["n", "exec", version] ++ cmd
    | some NodeVersionManager.nvm => (Fracture.buildNvmCommand env version cmd).getD cmd

/-- Fracture#installNodeDeps (src/fracture.ts): pick the package manager
by lockfile, wrap it through the Node version machinery, and run it; the
result is the error message (captured stderr on a non-zero exit, `none`
on success) together with the argv vector that was spawned. -/
def Fracture.installNodeDeps (env : NodeEnv) (path : String)
    (spawnExit : List String → Nat) (spawnErr : List String → String) :
    Option String × List String :=
  let cmd := pickCmd env.ex path PACKAGE_MANAGERS
  let installCmd := Fracture.buildNodeInstallCommand env path cmd
  (if spawnExit installCmd ≠ 0 then some (spawnErr installCmd) else none, installCmd)

/-- Written from the spec words: the Node install command chosen by
lockfile detection in fixed priority order, `pnpm-lock.yaml` then
`yarn.lock` then a binary or text bun lockfile, defaulting to npm. -/
def nodeInstallCmdSpec (ex : String → Bool) (path : String) : List String :=
  if ex (joinPath path "pnpm-lock.yaml") then ["pnpm", "install"]
  else if ex (joinPath path "yarn.lock") then ["yarn", "install"]
  else if ex (joinPath path "bun.lockb") ∨ ex (joinPath path "bun.lock") then
    ["bun", "install"]
  else ["npm", "install"]

/-- The lockfile chain of installNodeDeps in the search-picker CLI
variant (src/index.ts); this variant predates the `bun.lock` entry.  The
result of the `cp` in installNodeDeps below is ignored by the source (the
copy is best-effort) and the chosen install command runs afterwards
either way; a failed install only prints a warning. -/
def IndexV1.nodeInstallCmd (ex : String → Bool) (worktreePath : String) : List String :=
  if ex (joinPath worktreePath "pnpm-lock.yaml") then ["pnpm", "install"]
  else if ex (joinPath worktreePath "yarn.lock") then ["yarn", "install"]
  else if ex (joinPath worktreePath "bun.lockb") then ["bun", "install"]
  else ["npm", "install"]

/-- installNodeDeps of the search-picker CLI variant, as the list of argv
vectors it spawns, in order: the best-effort `node_modules` copy when the
source cache exists, then the chosen install command. -/
def IndexV1.installNodeDeps (ex : String → Bool) (repoRoot worktreePath : String) :
    List (List String) :=
  let srcNodeModules := joinPath repoRoot "node_modules"
  let dstNodeModules := joinPath worktreePath "node_modules"
  let copy :=
    if ex srcNodeModules then [["cp", "-Rc", srcNodeModules, dstNodeModules]] else []
  copy ++ [IndexV1.nodeInstallCmd ex worktreePath]

/-- Outcome of one CLI action of the clack-picker variant of
src/index.ts: an explicit `process.exit` with the given code, or falling
through past the modelled steps. -/
inductive CliExit
  | exited (code : Nat)
  | proceeded
deriving DecidableEq

/-- The ambient inputs of the clack-picker CLI variant of src/index.ts:
the results of `getRepoRoot` and `getOriginalRepoName`, the branch and
fracture listings, the interactive `p.select` outcome (`none` models a
cancelled picker, i.e. `p.isCancel`), `Date.now().toString()`, and the
exit status of the `git worktree` mutation. -/
structure CliInputs where
  repoRoot : Option String
  repoName : Option String
  branches : List String
  fractures : List String
  pick : Option String
  now : String
  worktreeOk : Bool

/-- create of the clack-picker CLI variant (src/index.ts), up to and
including the `git worktree add` call: the outcome is paired with the
argv vectors of the worktree mutation commands run (the later dependency
install and subshell are beyond this model and only happen in the
`proceeded` case).  A cancelled picker hits `p.isCancel(result)` and
calls `process.exit(1)` before any worktree command. -/
def IndexV2.create (home : String) (inp : CliInputs) (branch : Option String) :
    CliExit × List (List String) :=
  match inp.repoRoot with
  | none => (CliExit.exited 1, [])
  | some repoRoot =>
    let repoName := basename repoRoot
    let selected : Except CliExit String :=
      match branch with
      | some b => Except.ok b
      | none =>
        if inp.branches = [] then Except.error (CliExit.exited 1)
        else
          match inp.pick with
          | none => Except.error (CliExit.exited 1)
          | some sel => Except.ok sel
    match selected with
    | Except.error e => (e, [])
    | Except.ok selectedBranch =>
      let fractureId := inp.now
      let worktreePath := joinList [home, ".fracture", repoName, fractureId]
      let cmd :=
        match branch with
        | some b => ["git", "worktree", "add", "-b", b, worktreePath, selectedBranch]
        | none => ["git", "worktree", "add", worktreePath, selectedBranch]
      if inp.worktreeOk = false then (CliExit.exited 1, [cmd])
      else (CliExit.proceeded, [cmd])

/-- deleteFracture of the clack-picker CLI variant (src/index.ts): the
outcome is paired with the argv vectors of the worktree mutation
commands run.  A cancelled picker hits `p.isCancel(result)` and calls
`process.exit(1)` before any worktree command. -/
def IndexV2.deleteFracture (home : String) (inp : CliInputs) (name : Option String) :
    CliExit × List (List String) :=
  match inp.repoName with
  | none => (CliExit.exited 1, [])
  | some repoName =>
    let selected : Except CliExit String :=
      match name with
      | some n => Except.ok n
      | none =>
        if inp.fractures = [] then Except.error (CliExit.exited 1)
        else
          match inp.pick with
          | none => Except.error (CliExit.exited 1)
          | some sel => Except.ok sel
    match selected with
    | Except.error e => (e, [])
    | Except.ok sel =>
      let worktreePath := joinList [home, ".fracture", repoName, sel]
      let cmd := ["git", "worktree", "remove", worktreePath]
      if inp.worktreeOk = false then (CliExit.exited 1, [cmd])
      else (CliExit.proceeded, [cmd])

/-- One worktree record of `git worktree list --porcelain` output: the
path of its `worktree ` header line, and the remaining lines of the
record (attribute lines such as `HEAD`, `branch`, `detached`, and the
blank separator line). -/
structure PorcelainRecord where
  path : String
  rest : List String

/-- The raw output lines of a porcelain record. -/
def recLines (r : PorcelainRecord) : List String :=
  ("worktree " ++ r.path) :: r.rest

/-- Written from the spec words: the branch of a porcelain record is the
payload of its last `branch ` line, with `refs/heads/` stripped, and
"unknown" when the record has no `branch ` line. -/
def branchOf (r : PorcelainRecord) : String :=
  ((r.rest.filterMap (fun line =>
      if strStartsWith line "branch " then
        some (stripRefsHeads (jsTrim (jsSlice line ("branch ".length))))
      else none)).getLast?).getD "unknown"

/-- The branch accumulation performed by the worktree line loop across
the non-header lines of one record. -/
def branchFold (acc : String) (lines : List String) : String :=
  lines.foldl (fun b line =>
    if strStartsWith line "branch " then
      stripRefsHeads (jsTrim (jsSlice line ("branch ".length)))
    else b) acc

/-- Record-at-a-time restatement of the worktree line loop: each record
whose path yields an id inserts that id with the record's branch. -/
def processRecords (fracturesDir : String) (m : List (String × String)) :
    List PorcelainRecord → List (String × String)
  | [] => m
  | r :: rs =>
    processRecords fracturesDir
      (match recordId fracturesDir r.path with
       | some i => mapSet m i (branchOf r)
       | none => m) rs

theorem strMkData (s : String) : (⟨s.data⟩ : String) = s := by
  cases s
  rfl

theorem strDataAppend (a b : String) : (a ++ b).data = a.data ++ b.data := by
  cases a
  cases b
  rfl

theorem collapseSeps_no_sep :
    ∀ cs : List Char, (∀ c ∈ cs, isSep c = false) → collapseSeps cs = cs := by
  intro cs
  induction cs with
  | nil => intro _; rfl
  | cons c cs ih =>
    intro h
    have hc : isSep c = false := h c (List.mem_cons_self c cs)
    simp [collapseSeps, hc, ih fun d hd => h d (List.mem_cons_of_mem c hd)]

theorem skipSeps_run :
    ∀ (w ys : List Char), (∀ c ∈ w, isSep c = true) →
      (ys = [] ∨ ∃ d ds, ys = d :: ds ∧ isSep d = false) →
      skipSeps (w ++ ys) = collapseSeps ys := by
  intro w
  induction w with
  | nil =>
    intro ys _ hys
    rcases hys with h | ⟨d, ds, rfl, hd⟩
    · subst h; rfl
    · simp [skipSeps, collapseSeps, hd]
  | cons c w ih =>
    intro ys h hys
    have hc : isSep c = true := h c (List.mem_cons_self c w)
    simp only [List.cons_append, skipSeps, hc, if_pos]
    exact ih ys (fun d hd => h d (List.mem_cons_of_mem c hd)) hys

theorem collapseSeps_run :
    ∀ (xs w ys : List Char), (∀ c ∈ xs, isSep c = false) → w ≠ [] →
      (∀ c ∈ w, isSep c = true) →
      (ys = [] ∨ ∃ d ds, ys = d :: ds ∧ isSep d = false) →
      collapseSeps (xs ++ w ++ ys) = xs ++ '-' :: collapseSeps ys := by
  intro xs
  induction xs with
  | nil =>
    intro w ys _ hw hws hys
    cases w with
    | nil => exact absurd rfl hw
    | cons a w =>
      have ha : isSep a = true := hws a (List.mem_cons_self a w)
      simp only [List.nil_append, List.cons_append, collapseSeps, ha, if_pos]
      exact congrArg ('-' :: ·)
        (skipSeps_run w ys (fun d hd => hws d (List.mem_cons_of_mem a hd)) hys)
  | cons c xs ih =>
    intro w ys hxs hw hws hys
    have hc : isSep c = false := hxs c (List.mem_cons_self c xs)
    simp only [List.cons_append, collapseSeps, hc, if_neg, Bool.false_eq_true,
      not_false_iff, if_false]
    exact congrArg (c :: ·)
      (ih w ys (fun d hd => hxs d (List.mem_cons_of_mem c hd)) hw hws hys)

/-- C1: createFracture allocates the fracture id by collapsing every run
of `/` and `_` characters in the branch name into a single `-`, and when
a directory with that id already exists under the fracture directory it
fails with an already-exists error before invoking any git command:
(1) any successfully created fracture carries the collapsed id, (2) on a
path collision the result is the already-exists error and the exec trace
is empty, (3) characters outside `/` and `_` are left unchanged, and
(4) each maximal nonempty run of `/` and `_` becomes one `-`. -/
theorem claim1_create_id_allocation (home : String) (r : Repository)
    (ex : String → Bool) (o : List String → ExecResult)
    (branch : String) (isNewBranch : Bool) :
    (∀ f tr, Repository.createFracture home r ex o branch isNewBranch = (Except.ok f, tr) →
      f.id = Repository.buildFractureId branch)
    ∧ (ex (joinPath (r.fracturesDir home) (Repository.buildFractureId branch)) = true →
        Repository.createFracture home r ex o branch isNewBranch =
          (Except.error ("fracture already exists: " ++ Repository.buildFractureId branch
            ++ " (from branch \"" ++ branch ++ "\")"), []))
    ∧ (∀ s : String, (∀ c ∈ s.data, isSep c = false) → Repository.buildFractureId s = s)
    ∧ (∀ xs w ys : List Char, (∀ c ∈ xs, isSep c = false) → w ≠ [] →
        (∀ c ∈ w, isSep c = true) →
        (ys = [] ∨ ∃ d ds, ys = d :: ds ∧ isSep d = false) →
        Repository.buildFractureId ⟨xs ++ w ++ ys⟩ = ⟨xs ++ '-' :: collapseSeps ys⟩) := by
  refine ⟨?_, ?_, ?_, ?_⟩
  · intro f tr h
    unfold Repository.createFracture at h
    by_cases hex : ex (joinPath (r.fracturesDir home) (Repository.buildFractureId branch))
    · simp [hex] at h
    · simp only [hex, if_false, Bool.false_eq_true] at h
      by_cases hs : (o (if isNewBranch then
          ["git", "worktree", "add", "-b", branch,
            joinPath (r.fracturesDir home) (Repository.buildFractureId branch)]
        else
          ["git", "worktree", "add",
            joinPath (r.fracturesDir home) (Repository.buildFractureId branch), branch])).success
      · cases isNewBranch <;> simp_all <;> exact congrArg Fracture.id h.1.symm
      · simp_all
  · intro hex
    unfold Repository.createFracture
    simp [hex]
  · intro s h
    unfold Repository.buildFractureId
    rw [collapseSeps_no_sep s.data h]
  · intro xs w ys hxs hw hws hys
    unfold Repository.buildFractureId
    exact congrArg String.mk (collapseSeps_run xs w ys hxs hw hws hys)

/-- Witness for C1 at concrete inputs: branch "feat/user_auth" collapses
to id "feat-user-auth", and with that directory already present the
creation fails with the already-exists error having run no command. -/
theorem claim1_create_id_allocation_witness :
    Repository.createFracture "/home/u" ⟨"myapp", "/home/u/myapp"⟩
        (fun p => p == "/home/u/.fracture/myapp/feat-user-auth")
        (fun _ => ⟨true, "", ""⟩) "feat/user_auth" false =
      (Except.error ("fracture already exists: feat-user-auth"
        ++ " (from branch \"feat/user_auth\")"), [])
    ∧ Repository.buildFractureId "feat/user_auth" = "feat-user-auth" := by
  have h := claim1_create_id_allocation "/home/u" ⟨"myapp", "/home/u/myapp"⟩
    (fun p => p == "/home/u/.fracture/myapp/feat-user-auth")
    (fun _ => ⟨true, "", ""⟩) "feat/user_auth" false
  refine ⟨?_, by decide⟩
  have h2 := h.2.1 (by decide)
  simpa using h2

/-- C4: when the repository's fracture directory does not exist on disk,
getFractures returns the empty sequence (it returns normally, with no
error value in its type, rather than raising). -/
theorem claim4_getFractures_absent_dir (fracturesDir : String)
    (entries : List DirEntry) (res : ExecResult) :
    Repository.getFractures fracturesDir false entries res = [] := by
  simp [Repository.getFractures]

/-- C10: when the `git worktree list --porcelain` query fails,
getFractures still returns normally with one Fracture per subdirectory
of the fracture directory, every one of them with branch "unknown". -/
theorem claim10_worktree_list_failure (fracturesDir : String)
    (entries : List DirEntry) (res : ExecResult) (h : res.success = false) :
    Repository.getFractures fracturesDir true entries res =
      (entries.filter (·.isDirectory)).map (fun entry =>
        { id := entry.name
          path := joinPath fracturesDir entry.name
          branch := "unknown" }) := by
  simp [Repository.getFractures, Repository.getWorktreesById, h, mapGet]

/-- Witness for C10: a failed worktree listing over two directory entries
and one plain file yields the two fractures, both with branch "unknown". -/
theorem claim10_worktree_list_failure_witness :
    Repository.getFractures "/home/u/.fracture/myapp" true
        [⟨"feat-a", true⟩, ⟨"notes.txt", false⟩, ⟨"feat-b", true⟩] ⟨false, "", "boom"⟩ =
      [⟨"feat-a", "/home/u/.fracture/myapp/feat-a", "unknown"⟩,
       ⟨"feat-b", "/home/u/.fracture/myapp/feat-b", "unknown"⟩] := by
  rw [claim10_worktree_list_failure "/home/u/.fracture/myapp"
    [⟨"feat-a", true⟩, ⟨"notes.txt", false⟩, ⟨"feat-b", true⟩] ⟨false, "", "boom"⟩ rfl]
  decide

/-- C9: Fracture#delete returns null exactly when the worktree-removal
command succeeds; on failure it returns the captured stderr, or "unknown
error" when stderr is empty; and `--force` is passed exactly when the
force flag is set. -/
theorem claim9_delete_result (f : Fracture) (force : Bool)
    (o : List String → ExecResult) :
    (Fracture.delete f force o = none ↔ (o (Fracture.deleteCmd f force)).success = true)
    ∧ ((o (Fracture.deleteCmd f force)).success = false →
        (o (Fracture.deleteCmd f force)).stderr ≠ "" →
        Fracture.delete f force o = some (o (Fracture.deleteCmd f force)).stderr)
    ∧ ((o (Fracture.deleteCmd f force)).success = false →
        (o (Fracture.deleteCmd f force)).stderr = "" →
        Fracture.delete f force o = some "unknown error")
    ∧ (force = true → Fracture.deleteCmd f force = ["git", "worktree", "remove", f.path, "--force"])
    ∧ (force = false → Fracture.deleteCmd f force = ["git", "worktree", "remove", f.path]) := by
  refine ⟨?_, ?_, ?_, ?_, ?_⟩
  · by_cases hs : (o (Fracture.deleteCmd f force)).success <;>
      simp [Fracture.delete, hs]
  · intro hs hne
    simp [Fracture.delete, hs, hne]
  · intro hs he
    simp [Fracture.delete, hs, he]
  · intro hf
    simp [Fracture.deleteCmd, hf]
  · intro hf
    simp [Fracture.deleteCmd, hf]

/-- Witness for C9: a failed forced removal with empty stderr yields
"unknown error", and the force flag appended `--force` to the command. -/
theorem claim9_delete_result_witness :
    Fracture.delete ⟨"feat-a", "/home/u/.fracture/myapp/feat-a", "feat/a"⟩ true
        (fun _ => ⟨false, "", ""⟩) = some "unknown error"
    ∧ Fracture.deleteCmd ⟨"feat-a", "/home/u/.fracture/myapp/feat-a", "feat/a"⟩ true =
        ["git", "worktree", "remove", "/home/u/.fracture/myapp/feat-a", "--force"] := by
  have h := claim9_delete_result ⟨"feat-a", "/home/u/.fracture/myapp/feat-a", "feat/a"⟩ true
    (fun _ => ⟨false, "", ""⟩)
  exact ⟨h.2.2.1 rfl rfl, h.2.2.2.1 rfl⟩

/-- C5: for a Node project the install command is chosen by checking
lockfiles in the fixed order pnpm-lock.yaml, yarn.lock, bun.lockb,
bun.lock, defaulting to npm install: the scan over PACKAGE_MANAGERS
equals the spec's priority chain, and installNodeDeps spawns exactly
that command routed through the Node version wrapper. -/
theorem claim5_lockfile_priority (env : NodeEnv) (path : String)
    (spawnExit : List String → Nat) (spawnErr : List String → String) :
    pickCmd env.ex path PACKAGE_MANAGERS = nodeInstallCmdSpec env.ex path
    ∧ (Fracture.installNodeDeps env path spawnExit spawnErr).2 =
        Fracture.buildNodeInstallCommand env path (nodeInstallCmdSpec env.ex path) := by
  have hpick : pickCmd env.ex path PACKAGE_MANAGERS = nodeInstallCmdSpec env.ex path := by
    by_cases h1 : env.ex (joinPath path "pnpm-lock.yaml") <;>
      by_cases h2 : env.ex (joinPath path "yarn.lock") <;>
        by_cases h3 : env.ex (joinPath path "bun.lockb") <;>
          by_cases h4 : env.ex (joinPath path "bun.lock") <;>
            simp [pickCmd, PACKAGE_MANAGERS, nodeInstallCmdSpec, h1, h2, h3, h4]
  exact ⟨hpick, by simp [Fracture.installNodeDeps, hpick]⟩

/-- C6: for a Node project, installNodeDeps of the CLI (src/index.ts)
first best-effort copies the repository's node_modules directory into
the fracture — the copy happens exactly when the source cache exists,
and always strictly before the chosen package-manager install command. -/
theorem claim6_copy_node_modules (ex : String → Bool) (repoRoot worktreePath : String) :
    (ex (joinPath repoRoot "node_modules") = true →
      IndexV1.installNodeDeps ex repoRoot worktreePath =
        [["cp", "-Rc", joinPath repoRoot "node_modules", joinPath worktreePath "node_modules"],
         IndexV1.nodeInstallCmd ex worktreePath])
    ∧ (ex (joinPath repoRoot "node_modules") = false →
        IndexV1.installNodeDeps ex repoRoot worktreePath =
          [IndexV1.nodeInstallCmd ex worktreePath]) := by
  constructor
  · intro h
    simp [IndexV1.installNodeDeps, h]
  · intro h
    simp [IndexV1.installNodeDeps, h]

/-- Witness for C6: with a source node_modules and a yarn lockfile
present, the spawned commands are the copy followed by yarn install. -/
theorem claim6_copy_node_modules_witness :
    IndexV1.installNodeDeps
        (fun p => p == "/home/u/myapp/node_modules" ||
          p == "/home/u/.fracture/myapp/feat-a/yarn.lock")
        "/home/u/myapp" "/home/u/.fracture/myapp/feat-a" =
      [["cp", "-Rc", "/home/u/myapp/node_modules",
        "/home/u/.fracture/myapp/feat-a/node_modules"],
       ["yarn", "install"]] := by
  rw [(claim6_copy_node_modules
    (fun p => p == "/home/u/myapp/node_modules" ||
      p == "/home/u/.fracture/myapp/feat-a/yarn.lock")
    "/home/u/myapp" "/home/u/.fracture/myapp/feat-a").1 (by decide)]
  decide

/-- C8 counterexample: in the CLI (src/index.ts), with a repository
detected, branches available and the interactive picker cancelled,
create calls `process.exit(1)` — the exit code is 1, not the 0 the
claim states (the zero-effect part does hold: no worktree command ran). -/
theorem claim8_cancel_counterexample :
    IndexV2.create "/home/u"
        ⟨some "/home/u/myapp", some "myapp", ["main", "develop"], ["feat-a"],
          none, "1733912345", true⟩ none =
      (CliExit.exited 1, [])
    ∧ CliExit.exited 1 ≠ CliExit.exited 0 := by
  exact ⟨rfl, by decide⟩

/-- C8 amended: when the user cancels the interactive picker (branch
selection during create, or fracture selection during delete), the whole
operation aborts via `process.exit` with exit code 1 — not 0 — and zero
effect: no worktree mutation command is run. -/
theorem claim8_cancel_amended (home : String) (inp : CliInputs)
    (h : inp.pick = none) :
    IndexV2.create home inp none = (CliExit.exited 1, [])
    ∧ IndexV2.deleteFracture home inp none = (CliExit.exited 1, []) := by
  constructor
  · unfold IndexV2.create
    cases hr : inp.repoRoot with
    | none => rfl
    | some root =>
      by_cases hb : inp.branches = [] <;> simp [hb, h]
  · unfold IndexV2.deleteFracture
    cases hr : inp.repoName with
    | none => rfl
    | some nm =>
      by_cases hf : inp.fractures = [] <;> simp [hf, h]

/-- Witness for the amended C8 at concrete inputs: with branches and
fractures available and the picker cancelled, both operations exit with
code 1 having run no worktree command. -/
theorem claim8_cancel_amended_witness :
    IndexV2.create "/home/u"
        ⟨some "/home/u/myapp", some "myapp", ["main", "develop"], ["feat-a"],
          none, "1733912345", true⟩ none = (CliExit.exited 1, [])
    ∧ IndexV2.deleteFracture "/home/u"
        ⟨some "/home/u/myapp", some "myapp", ["main", "develop"], ["feat-a"],
          none, "1733912345", true⟩ none = (CliExit.exited 1, []) := by
  exact claim8_cancel_amended "/home/u"
    ⟨some "/home/u/myapp", some "myapp", ["main", "develop"], ["feat-a"],
      none, "1733912345", true⟩ rfl

theorem splitCh_ne_nil (sep : Char) (cs : List Char) : splitCh sep cs ≠ [] := by
  induction cs with
  | nil => simp [splitCh]
  | cons c cs ih =>
    by_cases h : c = sep
    · simp [splitCh, h]
    · simp only [splitCh, h, if_false]
      cases hs : splitCh sep cs with
      | nil => simp
      | cons g gs => simp

theorem splitCh_append (sep : Char) (xs ys : List Char) :
    splitCh sep (xs ++ sep :: ys) = splitCh sep xs ++ splitCh sep ys := by
  induction xs with
  | nil => simp [splitCh]
  | cons c xs ih =>
    by_cases h : c = sep
    · subst h
      simp [splitCh, ih]
    · simp only [List.cons_append, splitCh, h, if_false, List.append_eq]
      rw [ih]
      cases hs : splitCh sep xs with
      | nil => exact absurd hs (splitCh_ne_nil sep xs)
      | cons g gs => simp

theorem splitCh_no_sep (sep : Char) (cs : List Char) (h : ∀ c ∈ cs, c ≠ sep) :
    splitCh sep cs = [cs] := by
  induction cs with
  | nil => rfl
  | cons c cs ih =>
    have hc : c ≠ sep := h c (List.mem_cons_self c cs)
    simp only [splitCh, hc, if_false]
    rw [ih fun d hd => h d (List.mem_cons_of_mem c hd)]

theorem splitCh_mem_no_sep (sep : Char) (cs : List Char) :
    ∀ g ∈ splitCh sep cs, ∀ c ∈ g, c ≠ sep := by
  induction cs with
  | nil =>
    intro g hg
    simp [splitCh] at hg
    subst hg
    intro c hc
    simp at hc
  | cons c cs ih =>
    intro g hg d hd
    by_cases h : c = sep
    · simp only [splitCh, h, if_pos] at hg
      rcases List.mem_cons.mp hg with h0 | h0
      · subst h0; simp at hd
      · exact ih g h0 d hd
    · simp only [splitCh, h, if_false] at hg
      cases hs : splitCh sep cs with
      | nil => exact absurd hs (splitCh_ne_nil sep cs)
      | cons g0 gs0 =>
        rw [hs] at hg
        rcases List.mem_cons.mp hg with h0 | h0
        · subst h0
          rcases List.mem_cons.mp hd with h1 | h1
          · subst h1; exact h
          · exact ih g0 (hs ▸ List.mem_cons_self g0 gs0) d h1
        · exact ih g (hs ▸ List.mem_cons_of_mem g0 h0) d hd

theorem normStack_append (abs : Bool) (gs1 gs2 : List (List Char)) :
    ∀ st, normStack abs st (gs1 ++ gs2) = normStack abs (normStack abs st gs1) gs2 := by
  induction gs1 with
  | nil => intro st; rfl
  | cons g gs ih =>
    intro st
    by_cases h1 : g = [] ∨ g = ['.']
    · simp [normStack, h1, ih]
    · by_cases h2 : g = ['.', '.']
      · cases st with
        | nil => cases abs <;> simp [normStack, h1, h2, ih]
        | cons t ts =>
          by_cases h3 : t = ['.', '.'] <;> simp [normStack, h1, h2, h3, ih]
      · simp [normStack, h1, h2, ih]

theorem normStack_clean (abs : Bool) (gs : List (List Char))
    (h : ∀ g ∈ gs, g ≠ [] → (g ≠ ['.'] ∧ g ≠ ['.', '.'])) :
    ∀ st, normStack abs st gs = (gs.filter (· ≠ [])).reverse ++ st := by
  induction gs with
  | nil => intro st; simp [normStack]
  | cons g gs ih =>
    intro st
    by_cases hnil : g = []
    · subst hnil
      simp only [normStack, if_pos (Or.inl rfl)]
      rw [ih fun g hg hne => h g (List.mem_cons_of_mem _ hg) hne]
      simp
    · obtain ⟨h1, h2⟩ := h g (List.mem_cons_self g gs) hnil
      have hcond : ¬(g = [] ∨ g = ['.']) := by
        intro hc
        rcases hc with hc | hc
        · exact hnil hc
        · exact h1 hc
      simp only [normStack, hcond, if_false, h2]
      rw [ih fun g hg hne => h g (List.mem_cons_of_mem _ hg) hne]
      simp [List.filter_cons, hnil, List.append_assoc]

theorem splitCh_joinSegs (gs : List (List Char)) (hne : gs ≠ [])
    (h : ∀ g ∈ gs, ∀ c ∈ g, c ≠ '/') : splitCh '/' (joinSegs gs) = gs := by
  induction gs with
  | nil => exact absurd rfl hne
  | cons g gs ih =>
    cases gs with
    | nil => exact splitCh_no_sep '/' g (h g (List.mem_cons_self g []))
    | cons g2 gs2 =>
      have hjoin : joinSegs (g :: g2 :: gs2) = g ++ '/' :: joinSegs (g2 :: gs2) := rfl
      rw [hjoin, splitCh_append, splitCh_no_sep '/' g (h g (List.mem_cons_self _ _)),
        ih (by simp) fun g0 hg0 => h g0 (List.mem_cons_of_mem g hg0)]
      rfl

theorem revTailRev {α : Type} (l : List α) : l.reverse.tail.reverse = l.dropLast := by
  induction l using List.reverseRecOn with
  | nil => rfl
  | append_singleton xs x _ => simp

theorem segsOfChars_no_slash (cs : List Char) :
    ∀ g ∈ segsOfChars cs, ∀ c ∈ g, c ≠ '/' := by
  intro g hg
  exact splitCh_mem_no_sep '/' cs g (List.mem_of_mem_filter hg)

theorem segsOfChars_ne_nil (cs : List Char) : ∀ g ∈ segsOfChars cs, g ≠ [] := by
  intro g hg
  have := List.of_mem_filter hg
  simpa using this

theorem basename_joinPath_parent (p : String) (habs : isAbsolute p = true)
    (hclean : ∀ g ∈ segsOfChars p.data, g ≠ ['.'] ∧ g ≠ ['.', '.']) :
    basename (joinPath p "..") = parentBasename p := by
  have habs' : p.data.head? = some '/' := by
    simpa [isAbsolute] using habs
  obtain ⟨cs0, hcs0⟩ : ∃ cs0, p.data = '/' :: cs0 := by
    cases hd : p.data with
    | nil => rw [hd] at habs'; simp at habs'
    | cons c cs =>
      rw [hd] at habs'
      simp at habs'
      exact ⟨cs, by rw [habs']⟩
  have hpne : p ≠ "" := by
    intro h
    subst h
    simp at habs'
  have h1 : joinPath p ".." = normalizeString ⟨p.data ++ '/' :: ['.', '.']⟩ := by
    unfold joinPath joinList
    have hf : [p, ".."].filter (· ≠ "") = [p, ".."] := by simp [hpne]
    rw [hf]
    rfl
  rw [h1]
  have hdata : (⟨p.data ++ '/' :: ['.', '.']⟩ : String).data = p.data ++ '/' :: ['.', '.'] := rfl
  have habs0 : isAbsolute ⟨p.data ++ '/' :: ['.', '.']⟩ = true := by
    simp [isAbsolute, hdata, hcs0]
  have hsplit : splitCh '/' (p.data ++ '/' :: ['.', '.']) =
      splitCh '/' p.data ++ [['.', '.']] := by
    rw [splitCh_append]
    rfl
  have hcleanA : ∀ g ∈ splitCh '/' p.data, g ≠ [] → (g ≠ ['.'] ∧ g ≠ ['.', '.']) := by
    intro g hg hne
    exact hclean g (List.mem_filter.mpr ⟨hg, by simpa using hne⟩)
  have hstack : normStack true [] (splitCh '/' p.data ++ [['.', '.']]) =
      ((segsOfChars p.data).reverse).tail := by
    rw [normStack_append]
    rw [normStack_clean true (splitCh '/' p.data) hcleanA []]
    have hS : (((splitCh '/' p.data).filter (· ≠ [])).reverse ++ []) =
        (segsOfChars p.data).reverse := by simp [segsOfChars]
    rw [hS]
    cases hrev : (segsOfChars p.data).reverse with
    | nil => rfl
    | cons t ts =>
      have ht : t ∈ segsOfChars p.data := by
        have : t ∈ (segsOfChars p.data).reverse := by rw [hrev]; exact List.mem_cons_self t ts
        simpa using this
      have ht2 : t ≠ ['.', '.'] := (hclean t ht).2
      simp [normStack, ht2]
  unfold normalizeString
  rw [habs0]
  simp only [hdata, hsplit, hstack, if_true, revTailRev]
  cases hdl : (segsOfChars p.data).dropLast with
  | nil =>
    simp only []
    unfold parentBasename
    rw [hdl]
    rfl
  | cons d ds =>
    simp only []
    unfold basename parentBasename
    rw [hdl]
    have hsub : ∀ g ∈ d :: ds, g ∈ segsOfChars p.data := by
      intro g hg
      exact (List.dropLast_sublist (segsOfChars p.data)).subset (hdl ▸ hg)
    have hdsplit : splitCh '/' (joinSegs (d :: ds)) = d :: ds := by
      apply splitCh_joinSegs (d :: ds) (by simp)
      intro g hg
      exact segsOfChars_no_slash p.data g (hsub g hg)
    have hddata : (("/" : String) ++ (⟨joinSegs (d :: ds)⟩ : String)).data =
        '/' :: joinSegs (d :: ds) := by
      rw [strDataAppend]
      rfl
    have hsegs : segsOfChars (('/' :: joinSegs (d :: ds)) : List Char) = d :: ds := by
      unfold segsOfChars
      have : splitCh '/' ('/' :: joinSegs (d :: ds)) =
          [] :: splitCh '/' (joinSegs (d :: ds)) := by simp [splitCh]
      rw [this, hdsplit]
      have hall : ∀ g ∈ d :: ds, g ≠ [] := fun g hg =>
        segsOfChars_ne_nil p.data g (hsub g hg)
      have hdne : d ≠ [] := hall d (List.mem_cons_self d ds)
      simp only [List.filter_cons]
      rw [if_neg (by simp)]
      rw [if_pos (by simp [hdne])]
      congr 1
      apply List.filter_eq_self.mpr
      intro a ha
      simpa using hall a (List.mem_cons_of_mem d ha)
    rw [hddata, hsegs]

/-- C2: Repository.detect returns null exactly when either git query
fails; when both succeed, the root is the first query's stdout and the
canonical name is the base name of the common git directory's parent
when that path is absolute (for a common-dir path whose segments contain
no `.` or `..`), else the base name of the working-tree root. -/
theorem claim2_detect_canonical_name (rootResult gitDirResult : ExecResult)
    (hclean : ∀ g ∈ segsOfChars gitDirResult.stdout.data, g ≠ ['.'] ∧ g ≠ ['.', '.']) :
    (Repository.detect rootResult gitDirResult = none ↔
      rootResult.success = false ∨ gitDirResult.success = false)
    ∧ (∀ repo, Repository.detect rootResult gitDirResult = some repo →
        repo.root = rootResult.stdout
        ∧ (isAbsolute gitDirResult.stdout = false →
            repo.name = basename rootResult.stdout)
        ∧ (isAbsolute gitDirResult.stdout = true →
            repo.name = parentBasename gitDirResult.stdout)) := by
  constructor
  · cases hr : rootResult.success <;> cases hg : gitDirResult.success <;>
      simp [Repository.detect, hr, hg]
  · intro repo h
    cases hr : rootResult.success with
    | false => simp [Repository.detect, hr] at h
    | true =>
      cases hg : gitDirResult.success with
      | false => simp [Repository.detect, hr, hg] at h
      | true =>
        simp [Repository.detect, hr, hg] at h
        subst h
        refine ⟨rfl, ?_, ?_⟩
        · intro habs
          simp [habs]
        · intro habs
          simp only [habs, if_true]
          exact basename_joinPath_parent gitDirResult.stdout habs hclean

/-- Witness for C2: run from a fracture of repository "myapp", the
common git directory is the absolute path of the primary checkout's
.git, and detect yields name "myapp", the base name of that directory's
parent, not the base name of the fracture's working tree. -/
theorem claim2_detect_canonical_name_witness :
    Repository.detect ⟨true, "/home/u/.fracture/myapp/feat-a", ""⟩
        ⟨true, "/home/u/code/myapp/.git", ""⟩ =
      some ⟨"myapp", "/home/u/.fracture/myapp/feat-a"⟩
    ∧ parentBasename "/home/u/code/myapp/.git" = "myapp" := by
  have h := claim2_detect_canonical_name ⟨true, "/home/u/.fracture/myapp/feat-a", ""⟩
    ⟨true, "/home/u/code/myapp/.git", ""⟩ (by decide)
  have hname := ((h.2 ⟨"myapp", "/home/u/.fracture/myapp/feat-a"⟩ (by decide)).2.2 (by decide)).symm
  exact ⟨by decide, hname⟩

theorem readLoop_skip_or (env : NodeEnv) (path f : String) (rest : List String)
    (h : env.ex (joinPath path f) = false ∨ jsTrim (env.read (joinPath path f)) = "") :
    readNodeVersionLoop env path (f :: rest) = readNodeVersionLoop env path rest := by
  rcases h with h | h
  · simp [readNodeVersionLoop, h]
  · cases hx : env.ex (joinPath path f) with
    | false => simp [readNodeVersionLoop, hx]
    | true => simp [readNodeVersionLoop, hx, h]

theorem readLoop_hit (env : NodeEnv) (path f : String) (rest : List String)
    (hex : env.ex (joinPath path f) = true)
    (hne : jsTrim (env.read (joinPath path f)) ≠ "")
    (hf : f ≠ ".tool-versions") :
    readNodeVersionLoop env path (f :: rest) =
      some (jsTrim (env.read (joinPath path f))) := by
  simp [readNodeVersionLoop, hex, hne, hf]

theorem readLoop_tool (env : NodeEnv) (path : String) (rest : List String)
    (line version : String)
    (hex : env.ex (joinPath path ".tool-versions") = true)
    (hne : jsTrim (env.read (joinPath path ".tool-versions")) ≠ "")
    (hfind : ((splitRN (jsTrim (env.read (joinPath path ".tool-versions"))).data).map
        (fun g => (⟨g⟩ : String))).find?
        (fun entry => strStartsWith (jsTrim entry) "nodejs ") = some line)
    (htok : (wsTokens (jsTrim line)).get? 1 = some version)
    (hv : version ≠ "") :
    readNodeVersionLoop env path (".tool-versions" :: rest) = some version := by
  simp [readNodeVersionLoop, hex, hne, hfind, htok, hv]
  rw [List.get?_eq_getElem?] at htok
  simp [htok, hv]

/-- C7: Node version resolution reads pin files in the fixed priority
order .nvmrc, .node-version, .tool-versions (taking the version token of
the nodejs line of the latter); the manager is detected in the fixed
priority order fnm, then nvm (located via NVM_DIR or HOME/.nvm/nvm.sh),
then n, and the install command is wrapped accordingly; with no pin file
or no manager found the install command runs unwrapped. -/
theorem claim7_node_version_resolution (env : NodeEnv) (path : String) (cmd : List String) :
    (env.ex (joinPath path ".nvmrc") = true →
      jsTrim (env.read (joinPath path ".nvmrc")) ≠ "" →
      Fracture.readNodeVersion env path = some (jsTrim (env.read (joinPath path ".nvmrc"))))
    ∧ ((env.ex (joinPath path ".nvmrc") = false ∨
          jsTrim (env.read (joinPath path ".nvmrc")) = "") →
        env.ex (joinPath path ".node-version") = true →
        jsTrim (env.read (joinPath path ".node-version")) ≠ "" →
        Fracture.readNodeVersion env path =
          some (jsTrim (env.read (joinPath path ".node-version"))))
    ∧ (∀ line version,
        (env.ex (joinPath path ".nvmrc") = false ∨
          jsTrim (env.read (joinPath path ".nvmrc")) = "") →
        (env.ex (joinPath path ".node-version") = false ∨
          jsTrim (env.read (joinPath path ".node-version")) = "") →
        env.ex (joinPath path ".tool-versions") = true →
        jsTrim (env.read (joinPath path ".tool-versions")) ≠ "" →
        ((splitRN (jsTrim (env.read (joinPath path ".tool-versions"))).data).map
            (fun g => (⟨g⟩ : String))).find?
            (fun entry => strStartsWith (jsTrim entry) "nodejs ") = some line →
        (wsTokens (jsTrim line)).get? 1 = some version →
        version ≠ "" →
        Fracture.readNodeVersion env path = some version)
    ∧ ((∀ f ∈ NODE_VERSION_FILES, env.ex (joinPath path f) = false) →
        Fracture.readNodeVersion env path = none)
    ∧ (env.whichFnm = true →
        Fracture.detectNodeVersionManager env = some NodeVersionManager.fnm)
    ∧ (env.whichFnm = false → Fracture.hasNvm env = true →
        Fracture.detectNodeVersionManager env = some NodeVersionManager.nvm)
    ∧ (env.whichFnm = false → Fracture.hasNvm env = false → env.whichN = true →
        Fracture.detectNodeVersionManager env = some NodeVersionManager.n)
    ∧ (env.whichFnm = false → Fracture.hasNvm env = false → env.whichN = false →
        Fracture.detectNodeVersionManager env = none)
    ∧ (Fracture.readNodeVersion env path = none →
        Fracture.buildNodeInstallCommand env path cmd = cmd)
    ∧ (∀ version, Fracture.readNodeVersion env path = some version →
        Fracture.detectNodeVersionManager env = none →
        Fracture.buildNodeInstallCommand env path cmd = cmd)
    ∧ (∀ version, Fracture.readNodeVersion env path = some version →
        env.whichFnm = true →
        Fracture.buildNodeInstallCommand env path cmd =
          ["fnm", "exec", "--using", version, "--"] ++ cmd)
    ∧ (∀ version, Fracture.readNodeVersion env path = some version →
        env.whichFnm = false → Fracture.hasNvm env = false → env.whichN = true →
        Fracture.buildNodeInstallCommand env path cmd = ["n", "exec", version] ++ cmd)
    ∧ (∀ version, Fracture.readNodeVersion env path = some version →
        env.whichFnm = false → Fracture.hasNvm env = true →
        ∃ wrapped, Fracture.buildNvmCommand env version cmd = some wrapped ∧
          Fracture.buildNodeInstallCommand env path cmd = wrapped) := by
  refine ⟨?_, ?_, ?_, ?_, ?_, ?_, ?_, ?_, ?_, ?_, ?_, ?_, ?_⟩
  · intro hex hne
    unfold Fracture.readNodeVersion NODE_VERSION_FILES
    exact readLoop_hit env path ".nvmrc" _ hex hne (by decide)
  · intro h1 hex hne
    unfold Fracture.readNodeVersion NODE_VERSION_FILES
    rw [readLoop_skip_or env path ".nvmrc" _ h1]
    exact readLoop_hit env path ".node-version" _ hex hne (by decide)
  · intro line version h1 h2 hex hne hfind htok hv
    unfold Fracture.readNodeVersion NODE_VERSION_FILES
    rw [readLoop_skip_or env path ".nvmrc" _ h1,
      readLoop_skip_or env path ".node-version" _ h2]
    exact readLoop_tool env path _ line version hex hne hfind htok hv
  · intro h
    unfold Fracture.readNodeVersion NODE_VERSION_FILES
    rw [readLoop_skip_or env path ".nvmrc" _
        (Or.inl (h ".nvmrc" (by simp [NODE_VERSION_FILES]))),
      readLoop_skip_or env path ".node-version" _
        (Or.inl (h ".node-version" (by simp [NODE_VERSION_FILES]))),
      readLoop_skip_or env path ".tool-versions" _
        (Or.inl (h ".tool-versions" (by simp [NODE_VERSION_FILES])))]
    rfl
  · intro hf
    simp [Fracture.detectNodeVersionManager, hf]
  · intro hf hn
    simp [Fracture.detectNodeVersionManager, hf, hn]
  · intro hf hn hw
    simp [Fracture.detectNodeVersionManager, hf, hn, hw]
  · intro hf hn hw
    simp [Fracture.detectNodeVersionManager, hf, hn, hw]
  · intro h
    simp [Fracture.buildNodeInstallCommand, h]
  · intro version hv hd
    simp [Fracture.buildNodeInstallCommand, hv, hd]
  · intro version hv hf
    simp [Fracture.buildNodeInstallCommand, hv, Fracture.detectNodeVersionManager, hf]
  · intro version hv hf hn hw
    simp [Fracture.buildNodeInstallCommand, hv, Fracture.detectNodeVersionManager,
      hf, hn, hw]
  · intro version hv hf hn
    cases hd : nvmDirOf env with
    | none => simp [Fracture.hasNvm, hd] at hn
    | some nvmDir =>
      have hex : env.ex (joinPath nvmDir "nvm.sh") = true := by
        simpa [Fracture.hasNvm, hd] using hn
      refine ⟨[if env.ex "/bin/bash" then "/bin/bash"
          else match env.shellEnv with
            | some s => if s ≠ "" then s else "/bin/sh"
            | none => "/bin/sh",
          "-lc",
          ". " ++ Fracture.escapeShellArg (joinPath nvmDir "nvm.sh") ++ " && "
            ++ "nvm exec " ++ Fracture.escapeShellArg version ++ " "
            ++ joinSpace (cmd.map Fracture.escapeShellArg)], ?_, ?_⟩
      · simp [Fracture.buildNvmCommand, hd, hex]
      · simp [Fracture.buildNodeInstallCommand, hv, Fracture.detectNodeVersionManager,
          hf, hn, Fracture.buildNvmCommand, hd, hex]

/-- Witness for C7: with only a .tool-versions pin (nodejs 20.11.1), no
fnm, and nvm present under NVM_DIR, the version resolves from the nodejs
line, the manager detected is nvm, and the install command is wrapped
through the nvm shell invocation. -/
theorem claim7_node_version_resolution_witness :
    Fracture.readNodeVersion
        ⟨fun p => p == "/w/.tool-versions" || p == "/opt/nvm/nvm.sh",
         fun _ => "python 3.12\nnodejs 20.11.1",
         some "/opt/nvm", some "/home/u", some "/bin/zsh", false, false⟩ "/w"
      = some "20.11.1"
    ∧ Fracture.detectNodeVersionManager
        ⟨fun p => p == "/w/.tool-versions" || p == "/opt/nvm/nvm.sh",
         fun _ => "python 3.12\nnodejs 20.11.1",
         some "/opt/nvm", some "/home/u", some "/bin/zsh", false, false⟩
      = some NodeVersionManager.nvm
    ∧ ∃ wrapped,
        Fracture.buildNvmCommand
          ⟨fun p => p == "/w/.tool-versions" || p == "/opt/nvm/nvm.sh",
           fun _ => "python 3.12\nnodejs 20.11.1",
           some "/opt/nvm", some "/home/u", some "/bin/zsh", false, false⟩
          "20.11.1" ["npm", "install"] = some wrapped
        ∧ Fracture.buildNodeInstallCommand
            ⟨fun p => p == "/w/.tool-versions" || p == "/opt/nvm/nvm.sh",
             fun _ => "python 3.12\nnodejs 20.11.1",
             some "/opt/nvm", some "/home/u", some "/bin/zsh", false, false⟩
            "/w" ["npm", "install"] = wrapped := by
  have h := claim7_node_version_resolution
    ⟨fun p => p == "/w/.tool-versions" || p == "/opt/nvm/nvm.sh",
     fun _ => "python 3.12\nnodejs 20.11.1",
     some "/opt/nvm", some "/home/u", some "/bin/zsh", false, false⟩
    "/w" ["npm", "install"]
  have h3 := h.2.2.1 "nodejs 20.11.1" "20.11.1" (Or.inl (by decide)) (Or.inl (by decide))
    (by decide) (by decide) (by decide) (by decide) (by decide)
  have h6 := h.2.2.2.2.2.1 rfl (by decide)
  have h13 := h.2.2.2.2.2.2.2.2.2.2.2.2 "20.11.1" h3 rfl (by decide)
  exact ⟨h3, h6, h13⟩

theorem findMapped (m : List (String × String)) (k v : String)
    (hany : m.any (fun p => p.1 == k) = true) :
    (m.map (fun p => if p.1 == k then (k, v) else p)).find? (fun p => p.1 == k) =
      some (k, v) := by
  induction m with
  | nil => simp at hany
  | cons a m ih =>
    by_cases ha : a.1 == k
    · simp [List.find?, ha]
    · have hany' : m.any (fun p => p.1 == k) = true := by
        simpa [List.any_cons, ha] using hany
      have ha' : (a.1 == k) = false := by
        revert ha
        cases a.1 == k <;> simp
      simp only [List.map_cons, List.find?, ha', Bool.false_eq_true, if_false]
      exact ih hany'

theorem mapGet_mapSet_self (m : List (String × String)) (k v : String) :
    mapGet (mapSet m k v) k = some v := by
  unfold mapGet mapSet
  by_cases hany : m.any (fun p => p.1 == k) = true
  · rw [if_pos hany, findMapped m k v hany]
    rfl
  · rw [if_neg hany, List.find?_append]
    have hnone : m.find? (fun p => p.1 == k) = none := by
      rw [List.find?_eq_none]
      intro x hx hpx
      exact hany (List.any_eq_true.mpr ⟨x, hx, hpx⟩)
    simp [hnone, List.find?]

theorem findMapped_ne (m : List (String × String)) (k k' v : String) (h : k' ≠ k) :
    (m.map (fun p => if p.1 == k then (k, v) else p)).find? (fun p => p.1 == k') =
      m.find? (fun p => p.1 == k') := by
  induction m with
  | nil => rfl
  | cons a m ih =>
    by_cases ha : a.1 == k
    · have hak : a.1 = k := by simpa using ha
      have h1 : ((k, v).1 == k') = false := beq_eq_false_iff_ne.mpr (Ne.symm h)
      have h2 : (a.1 == k') = false := by
        rw [hak]
        exact beq_eq_false_iff_ne.mpr (Ne.symm h)
      simp only [List.map_cons, List.find?, if_pos ha, h1, h2, Bool.false_eq_true,
        if_false]
      exact ih
    · have ha' : (a.1 == k) = false := by
        revert ha
        cases a.1 == k <;> simp
      simp only [List.map_cons, List.find?, ha', Bool.false_eq_true, if_false]
      cases hp : (a.1 == k') with
      | true => rfl
      | false => exact ih

theorem mapGet_mapSet_ne (m : List (String × String)) (k k' v : String) (h : k' ≠ k) :
    mapGet (mapSet m k v) k' = mapGet m k' := by
  unfold mapGet mapSet
  by_cases hany : m.any (fun p => p.1 == k) = true
  · rw [if_pos hany, findMapped_ne m k k' v h]
  · rw [if_neg hany, List.find?_append]
    have h1 : ([(k, v)].find? (fun p => p.1 == k')) = none := by
      simp [List.find?, beq_eq_false_iff_ne.mpr (Ne.symm h)]
    cases hm : m.find? (fun p => p.1 == k') with
    | some p => simp [hm]
    | none => simp [hm, h1]

theorem getLastD_cons {α : Type} (t : List α) (x d : α) :
    ((x :: t).getLast?).getD d = (t.getLast?).getD x := by
  induction t generalizing x d with
  | nil => rfl
  | cons h t ih =>
    rw [List.getLast?_cons_cons]
    rw [ih h d, ih h x]

theorem branchFold_getLast (lines : List String) :
    ∀ acc, branchFold acc lines =
      ((lines.filterMap (fun line =>
        if strStartsWith line "branch " then
          some (stripRefsHeads (jsTrim (jsSlice line ("branch ".length))))
        else none)).getLast?).getD acc := by
  induction lines with
  | nil => intro acc; rfl
  | cons l ls ih =>
    intro acc
    by_cases hb : strStartsWith l "branch " = true
    · simp only [branchFold, List.foldl_cons, List.filterMap_cons, hb, if_pos]
      rw [getLastD_cons]
      exact ih _
    · have hb' : strStartsWith l "branch " = false := by
        revert hb
        cases strStartsWith l "branch " <;> simp
      simp only [branchFold, List.foldl_cons, List.filterMap_cons, hb', if_false,
        Bool.false_eq_true]
      exact ih acc

theorem branchOf_eq_fold (r : PorcelainRecord) :
    branchOf r = branchFold "unknown" r.rest := by
  unfold branchOf
  rw [branchFold_getLast]

theorem prefOf_append (xs ys : List Char) : prefOf xs (xs ++ ys) = true := by
  induction xs with
  | nil => rfl
  | cons c cs ih => simp [prefOf, ih]

theorem strStartsWith_append (pre p : String) :
    strStartsWith (pre ++ p) pre = true := by
  unfold strStartsWith
  rw [strDataAppend]
  exact prefOf_append pre.data p.data

theorem jsSlice_append (pre p : String) :
    jsSlice (pre ++ p) pre.length = p := by
  unfold jsSlice
  rw [strDataAppend]
  have h1 : pre.length = pre.data.length := rfl
  rw [h1, List.drop_left]

theorem worktreeLoop_rest (fd : String) (lines : List String)
    (hno : ∀ l ∈ lines, strStartsWith l "worktree " = false) :
    ∀ (tail : List String) (p : String) (cb : String) (m : List (String × String)),
      worktreeLoop fd (lines ++ tail) (some p) cb m =
        worktreeLoop fd tail (some p) (branchFold cb lines) m := by
  induction lines with
  | nil => intro tail p cb m; rfl
  | cons l ls ih =>
    intro tail p cb m
    have hl : strStartsWith l "worktree " = false := hno l (List.mem_cons_self l ls)
    have hls : ∀ l ∈ ls, strStartsWith l "worktree " = false :=
      fun x hx => hno x (List.mem_cons_of_mem l hx)
    by_cases hb : strStartsWith l "branch " = true
    · simp only [List.cons_append, worktreeLoop, hl, Bool.false_eq_true, if_false, hb,
        if_true, branchFold, List.foldl_cons]
      exact ih hls tail p _ m
    · have hb' : strStartsWith l "branch " = false := by
        revert hb
        cases strStartsWith l "branch " <;> simp
      simp only [List.cons_append, worktreeLoop, hl, Bool.false_eq_true, if_false, hb',
        branchFold, List.foldl_cons]
      exact ih hls tail p cb m

theorem flushWorktree_branchOf (fd : String) (m : List (String × String))
    (r : PorcelainRecord) :
    flushWorktree fd m (some r.path) (branchFold "unknown" r.rest) =
      (match recordId fd r.path with
       | some i => mapSet m i (branchOf r)
       | none => m) := by
  unfold flushWorktree
  rw [← branchOf_eq_fold r]

theorem worktreeLoop_records (fd : String) :
    ∀ (records : List PorcelainRecord) (cp : Option String) (cb : String)
      (m : List (String × String)),
      (∀ r ∈ records, jsTrim r.path = r.path) →
      (∀ r ∈ records, ∀ l ∈ r.rest, strStartsWith l "worktree " = false) →
      worktreeLoop fd (records.flatMap recLines) cp cb m =
        processRecords fd (flushWorktree fd m cp cb) records := by
  intro records
  induction records with
  | nil => intro cp cb m _ _; rfl
  | cons r rs ih =>
    intro cp cb m htrim hnw
    have hflat : (r :: rs).flatMap recLines =
        ("worktree " ++ r.path) :: (r.rest ++ rs.flatMap recLines) := by
      simp [recLines]
    rw [hflat]
    have hsw : strStartsWith ("worktree " ++ r.path) "worktree " = true :=
      strStartsWith_append "worktree " r.path
    simp only [worktreeLoop, hsw, if_true]
    rw [jsSlice_append "worktree " r.path, htrim r (List.mem_cons_self r rs)]
    rw [worktreeLoop_rest fd r.rest
      (fun l hl => hnw r (List.mem_cons_self r rs) l hl)]
    rw [ih _ _ _
      (fun x hx => htrim x (List.mem_cons_of_mem r hx))
      (fun x hx => hnw x (List.mem_cons_of_mem r hx))]
    rw [flushWorktree_branchOf]
    rfl

theorem processRecords_skip (fd : String) :
    ∀ (rs : List PorcelainRecord) (m : List (String × String)) (i : String),
      (∀ b ∈ rs, recordId fd b.path ≠ some i) →
      mapGet (processRecords fd m rs) i = mapGet m i := by
  intro rs
  induction rs with
  | nil => intro m i _; rfl
  | cons b bs ih =>
    intro m i h
    simp only [processRecords]
    cases hb : recordId fd b.path with
    | none => exact ih m i (fun x hx => h x (List.mem_cons_of_mem b hx))
    | some j =>
      have hji : i ≠ j := by
        intro hij
        exact h b (List.mem_cons_self b bs) (by rw [hb, hij])
      rw [ih _ i (fun x hx => h x (List.mem_cons_of_mem b hx))]
      exact mapGet_mapSet_ne m j i (branchOf b) hji

theorem processRecords_lookup (fd : String) :
    ∀ (records : List PorcelainRecord) (m : List (String × String))
      (r : PorcelainRecord) (i : String),
      r ∈ records → recordId fd r.path = some i →
      records.Pairwise (fun a b => ∀ j, recordId fd a.path = some j →
        recordId fd b.path ≠ some j) →
      mapGet (processRecords fd m records) i = some (branchOf r) := by
  intro records
  induction records with
  | nil => intro m r i hr; exact absurd hr (by simp)
  | cons r0 rs ih =>
    intro m r i hr hid hp
    rw [List.pairwise_cons] at hp
    obtain ⟨hhead, htail⟩ := hp
    rcases List.mem_cons.mp hr with rfl | hmem
    · simp only [processRecords, hid]
      rw [processRecords_skip fd rs _ i (fun b hb => hhead b hb i hid)]
      exact mapGet_mapSet_self m i (branchOf r)
    · simp only [processRecords]
      exact ih _ r i hmem hid htail

theorem recordId_of_under (fd id : String) (hne : id ≠ "")
    (hns : ∀ c ∈ id.data, c ≠ '/') :
    recordId fd (fd ++ "/" ++ id) = some id := by
  unfold recordId
  have hsw : strStartsWith (fd ++ "/" ++ id) fd = true := by
    unfold strStartsWith
    rw [strDataAppend, strDataAppend, List.append_assoc]
    exact prefOf_append fd.data _
  rw [if_pos hsw]
  have hslice : jsSlice (fd ++ "/" ++ id) (fd.length + 1) = id := by
    have h1 : fd.length + 1 = (fd ++ "/").length := by
      show fd.data.length + 1 = ((fd ++ "/")).data.length
      rw [strDataAppend, List.length_append]
      rfl
    rw [h1]
    exact jsSlice_append (fd ++ "/") id
  rw [hslice]
  have hhead : headSegOf id = id := by
    unfold headSegOf
    rw [splitCh_no_sep '/' id.data hns]
    exact strMkData id
  rw [hhead, if_neg hne]

/-- C3: over well-formed `git worktree list --porcelain` output (given as
its records: each record contributes its `worktree <path>` header line
followed by its other lines, record paths carry no surrounding
whitespace, non-header lines never start with `worktree `, and distinct
records never derive the same fracture id), the registry maps each
record lying directly under the fracture directory to the payload of the
last `branch ` line of that record with `refs/heads/` stripped; a record
with no `branch ` line maps to "unknown"; and every candidate directory
entry absent from the map is listed by getFractures with branch
"unknown". -/
theorem claim3_registry_branch_mapping (fracturesDir : String) (res : ExecResult)
    (records : List PorcelainRecord)
    (hsucc : res.success = true)
    (hlines : jsSplit '\n' res.stdout = records.flatMap recLines)
    (htrim : ∀ r ∈ records, jsTrim r.path = r.path)
    (hnw : ∀ r ∈ records, ∀ line ∈ r.rest, strStartsWith line "worktree " = false)
    (huniq : records.Pairwise (fun a b => ∀ i, recordId fracturesDir a.path = some i →
      recordId fracturesDir b.path ≠ some i)) :
    (∀ r ∈ records, ∀ id : String, r.path = fracturesDir ++ "/" ++ id → id ≠ "" →
      (∀ c ∈ id.data, c ≠ '/') →
      mapGet (Repository.getWorktreesById fracturesDir res) id = some (branchOf r))
    ∧ (∀ r ∈ records, ∀ id : String, r.path = fracturesDir ++ "/" ++ id → id ≠ "" →
        (∀ c ∈ id.data, c ≠ '/') →
        (∀ line ∈ r.rest, strStartsWith line "branch " = false) →
        mapGet (Repository.getWorktreesById fracturesDir res) id = some "unknown")
    ∧ (∀ (entries : List DirEntry) (e : DirEntry), e ∈ entries → e.isDirectory = true →
        mapGet (Repository.getWorktreesById fracturesDir res) e.name = none →
        (⟨e.name, joinPath fracturesDir e.name, "unknown"⟩ : Fracture) ∈
          Repository.getFractures fracturesDir true entries res) := by
  have hmap : Repository.getWorktreesById fracturesDir res =
      processRecords fracturesDir [] records := by
    unfold Repository.getWorktreesById
    simp only [hsucc, Bool.true_eq_false, if_false]
    rw [hlines, worktreeLoop_records fracturesDir records none "unknown" [] htrim hnw]
    rfl
  have main : ∀ r ∈ records, ∀ id : String, r.path = fracturesDir ++ "/" ++ id →
      id ≠ "" → (∀ c ∈ id.data, c ≠ '/') →
      mapGet (Repository.getWorktreesById fracturesDir res) id = some (branchOf r) := by
    intro r hr id hpath hne hns
    have hid : recordId fracturesDir r.path = some id := by
      rw [hpath]
      exact recordId_of_under fracturesDir id hne hns
    rw [hmap]
    exact processRecords_lookup fracturesDir records [] r id hr hid huniq
  refine ⟨main, ?_, ?_⟩
  · intro r hr id hpath hne hns hnob
    have hb : branchOf r = "unknown" := by
      unfold branchOf
      have hnil : r.rest.filterMap (fun line =>
          if strStartsWith line "branch " then
            some (stripRefsHeads (jsTrim (jsSlice line ("branch ".length))))
          else none) = [] := by
        rw [List.filterMap_eq_nil_iff]
        intro l hl
        simp [hnob l hl]
      rw [hnil]
      rfl
    rw [← hb]
    exact main r hr id hpath hne hns
  · intro entries e he hdir hnone
    unfold Repository.getFractures
    simp only [Bool.true_eq_false, if_false]
    apply List.mem_map.mpr
    refine ⟨e, List.mem_filter.mpr ⟨he, by simp [hdir]⟩, ?_⟩
    simp [hnone]

/-- Witness for C3 on a concrete porcelain output with the primary
checkout (outside the fracture directory) and one fracture record: the
fracture id maps to the stripped branch of its record, and a stale
directory entry absent from the map is listed with branch "unknown". -/
theorem claim3_registry_branch_mapping_witness :
    mapGet (Repository.getWorktreesById "/h/.fracture/myapp"
        ⟨true, "worktree /h/code/myapp\nHEAD 9999\nbranch refs/heads/main\n\nworktree /h/.fracture/myapp/feat-a\nHEAD 1234\nbranch refs/heads/feat/a\n", ""⟩)
        "feat-a" = some "feat/a"
    ∧ (⟨"stale", joinPath "/h/.fracture/myapp" "stale", "unknown"⟩ : Fracture) ∈
        Repository.getFractures "/h/.fracture/myapp" true
          [⟨"feat-a", true⟩, ⟨"stale", true⟩]
          ⟨true, "worktree /h/code/myapp\nHEAD 9999\nbranch refs/heads/main\n\nworktree /h/.fracture/myapp/feat-a\nHEAD 1234\nbranch refs/heads/feat/a\n", ""⟩ := by
  have huniq : ([⟨"/h/code/myapp", ["HEAD 9999", "branch refs/heads/main", ""]⟩,
      ⟨"/h/.fracture/myapp/feat-a", ["HEAD 1234", "branch refs/heads/feat/a", ""]⟩] :
        List PorcelainRecord).Pairwise
      (fun a b => ∀ i, recordId "/h/.fracture/myapp" a.path = some i →
        recordId "/h/.fracture/myapp" b.path ≠ some i) := by
    refine List.Pairwise.cons ?_ (List.Pairwise.cons (by simp) List.Pairwise.nil)
    intro b _ i hsome
    rw [show recordId "/h/.fracture/myapp" "/h/code/myapp" = none from by decide] at hsome
    exact absurd hsome (by simp)
  have h := claim3_registry_branch_mapping "/h/.fracture/myapp"
    ⟨true, "worktree /h/code/myapp\nHEAD 9999\nbranch refs/heads/main\n\nworktree /h/.fracture/myapp/feat-a\nHEAD 1234\nbranch refs/heads/feat/a\n", ""⟩
    [⟨"/h/code/myapp", ["HEAD 9999", "branch refs/heads/main", ""]⟩,
     ⟨"/h/.fracture/myapp/feat-a", ["HEAD 1234", "branch refs/heads/feat/a", ""]⟩]
    rfl (by decide) (by decide) (by decide) huniq
  constructor
  · have h1 := h.1 ⟨"/h/.fracture/myapp/feat-a", ["HEAD 1234", "branch refs/heads/feat/a", ""]⟩
      (by simp) "feat-a" (by decide) (by decide) (by decide)
    rw [h1]
    decide
  · exact h.2.2 [⟨"feat-a", true⟩, ⟨"stale", true⟩] ⟨"stale", true⟩ (by simp) rfl (by decide)
